import Mathlib

/-
Verification development for the seq2seq model in hw2-q3/models.py.

Tensors are modelled as nested lists of real numbers (one nesting level per
tensor dimension).  Floating-point arithmetic is modelled by exact real
arithmetic; the value negative infinity, which appears only as the fill value
of masked attention scores, is modelled by `none` in `Option ℝ`, with
`Real.exp` extended by `exp (-inf) = 0` inside the masked softmax.
Runtime errors (shape mismatches rejected by the tensor library, or use of a
variable that was never assigned) are modelled by `Option`-valued functions
returning `none`.  Dropout is modelled in evaluation mode, where nn.Dropout
is the identity map.
-/

namespace HW2

/-- A vector: one row of real numbers. -/
abbrev Vec := List ℝ

/-- A matrix, stored as its list of rows, as in nn.Linear weights
(out_features, in_features). -/
abbrev Mat := List Vec

/-- Dot product of two vectors. -/
noncomputable def dot (a b : Vec) : ℝ := (List.zipWith (· * ·) a b).sum

/-- Matrix–vector product: one dot product per row. -/
noncomputable def matVec (W : Mat) (x : Vec) : Vec := W.map (fun r => dot r x)

/-- Componentwise sum of two vectors. -/
noncomputable def addVec (a b : Vec) : Vec := List.zipWith (· + ·) a b

/-- Componentwise (Hadamard) product of two vectors. -/
noncomputable def mulVec (a b : Vec) : Vec := List.zipWith (· * ·) a b

/-- A linear layer with bias (nn.Linear). -/
noncomputable def linear (W : Mat) (b : Vec) (x : Vec) : Vec := addVec (matVec W x) b

/-- Logistic sigmoid, the LSTM gate nonlinearity. -/
noncomputable def sigmoid (x : ℝ) : ℝ := 1 / (1 + Real.exp (-x))

/-- Embedding lookup (nn.Embedding): the row of the table at the token index. -/
def embed (E : Mat) (tok : ℕ) : Vec := E.getD tok []

/-- nn.Dropout in evaluation mode is the identity map. -/
def dropoutEval {α : Type} (x : α) : α := x

/-- The zero vector of a given width. -/
noncomputable def zeros (n : ℕ) : Vec := List.replicate n 0

/-- Parameters of one direction of a single-layer torch.nn.LSTM: the
weight_ih and weight_hh row blocks and the bias_ih / bias_hh slices for each
of the four gates i, f, g, o. -/
structure LSTMCellW where
  Wxi : Mat
  Whi : Mat
  bxi : Vec
  bhi : Vec
  Wxf : Mat
  Whf : Mat
  bxf : Vec
  bhf : Vec
  Wxg : Mat
  Whg : Mat
  bxg : Vec
  bhg : Vec
  Wxo : Mat
  Who : Mat
  bxo : Vec
  bho : Vec

/-- One step of the LSTM recurrence, with the torch gate equations
i = sigma(W_ii x + b_ii + W_hi h + b_hi) and so on. -/
noncomputable def lstmCell (w : LSTMCellW) (x h c : Vec) : Vec × Vec :=
  let i := (addVec (addVec (matVec w.Wxi x) w.bxi) (addVec (matVec w.Whi h) w.bhi)).map sigmoid
  let f := (addVec (addVec (matVec w.Wxf x) w.bxf) (addVec (matVec w.Whf h) w.bhf)).map sigmoid
  let g := (addVec (addVec (matVec w.Wxg x) w.bxg) (addVec (matVec w.Whg h) w.bhg)).map Real.tanh
  let o := (addVec (addVec (matVec w.Wxo x) w.bxo) (addVec (matVec w.Who h) w.bho)).map sigmoid
  let c2 := addVec (mulVec f c) (mulVec i g)
  (mulVec o (c2.map Real.tanh), c2)

/-- Run the LSTM over an input sequence from initial state (h, c); returns
the list of hidden outputs and the final (h, c). -/
noncomputable def lstmRun (w : LSTMCellW) (h c : Vec) : List Vec → List Vec × (Vec × Vec)
  | [] => ([], (h, c))
  | x :: xs =>
    let hc := lstmCell w x h c
    let rest := lstmRun w hc.1 hc.2 xs
    (hc.1 :: rest.1, rest.2)

/-- The batch maximum of src_lengths (lengths.max() on line 73), used as the
width of the attention mask. -/
def maxLen (lengths : List ℕ) : ℕ := lengths.foldr max 0

/-- models Encoder.__init__ line 89: the internal recurrent hidden size
self.hidden_size is the configured size halved (integer division). -/
def encoderHiddenSize (hidden_size : ℕ) : ℕ := hidden_size / 2

/-- Encoder parameters: the source embedding table and the two directions of
the single-layer bidirectional LSTM, whose hidden size H is the halved
configured size. -/
structure EncoderM where
  H : ℕ
  embedding : Mat
  fw : LSTMCellW
  bw : LSTMCellW

/-- Embedded valid part of one source sequence of the batch: embedding plus
dropout is positionwise, and pack_padded_sequence restricts the recurrence
to the first L tokens of the sequence. -/
noncomputable def encInputs (e : EncoderM) (srcSeq : List ℕ) (L : ℕ) : List Vec :=
  ((srcSeq.take L).map (embed e.embedding)).map dropoutEval

/-- Encoder.forward restricted to one sequence of the batch: the packed
bidirectional LSTM runs the forward direction over the valid part and the
backward direction over its reverse, the two per-position hidden vectors are
concatenated, and pad_packed_sequence pads with zero vectors up to the batch
maximum length m. -/
noncomputable def encoderSeqOut (e : EncoderM) (srcSeq : List ℕ) (L m : ℕ) : List Vec :=
  let xs := encInputs e srcSeq L
  let fo := (lstmRun e.fw (zeros e.H) (zeros e.H) xs).1
  let bo := ((lstmRun e.bw (zeros e.H) (zeros e.H) xs.reverse).1).reverse
  dropoutEval (List.zipWith (· ++ ·) fo bo ++ List.replicate (m - L) (zeros (2 * e.H)))

/-- Final (h, c) of both directions of the packed bidirectional LSTM on one
sequence of the batch. -/
noncomputable def encoderSeqFinal (e : EncoderM) (srcSeq : List ℕ) (L : ℕ) :
    (Vec × Vec) × (Vec × Vec) :=
  let xs := encInputs e srcSeq L
  ((lstmRun e.fw (zeros e.H) (zeros e.H) xs).2,
   (lstmRun e.bw (zeros e.H) (zeros e.H) xs.reverse).2)

/-- Encoder.forward (models.py lines 105–136): per-sequence padded outputs,
and the final hidden/cell states stacked as (2 directions, batch, H). -/
noncomputable def encoderForward (e : EncoderM) (src : List (List ℕ)) (lengths : List ℕ) :
    List (List Vec) × (List (List Vec) × List (List Vec)) :=
  let m := maxLen lengths
  let outs := List.zipWith (fun s L => encoderSeqOut e s L m) src lengths
  let fins := List.zipWith (fun s L => encoderSeqFinal e s L) src lengths
  (outs,
   ([fins.map (fun p => p.1.1), fins.map (fun p => p.2.1)],
    [fins.map (fun p => p.1.2), fins.map (fun p => p.2.2)]))

/-- Parameters of BahdanauAttention: the three bias-free linear maps. -/
structure BahdanauAttention where
  Ws : Mat
  Wh : Mat
  v : Vec

/-- Alignment scores of one batch element at one target step (line 48): for
each source position j, v · tanh(Wh h_j + Ws q). -/
noncomputable def scoresRow (A : BahdanauAttention) (encRow : List Vec) (q : Vec) : List ℝ :=
  encRow.map (fun hj => dot A.v ((addVec (matVec A.Wh hj) (matVec A.Ws q)).map Real.tanh))

/-- One row of sequence_mask (lines 67–77): width is the batch maximum of
src_lengths, and entry j is the test j < L. -/
def maskRow (m L : ℕ) : List Bool := (List.range m).map (fun j => decide (j < L))

/-- sequence_mask (lines 67–77): one mask row per sequence of the batch. -/
def sequence_mask (lengths : List ℕ) : List (List Bool) :=
  lengths.map (fun L => maskRow (maxLen lengths) L)

/-- masked_fill of one score row with negative infinity where the mask row is
false (line 52); `none` models -inf.  Following torch broadcasting, a mask
row of width 1 is broadcast across the whole score row; any other width
mismatch is a runtime error, modelled by `none`. -/
def maskedFillRow (srow : List ℝ) (mrow : List Bool) : Option (List (Option ℝ)) :=
  if mrow.length = srow.length then
    some (List.zipWith (fun s keep => if keep then some s else none) srow mrow)
  else if mrow.length = 1 then
    some (srow.map (fun s => if mrow.headI then some s else none))
  else
    none

/-- Normalizer of the masked softmax: the sum of exp over the entries that
were not filled with -inf. -/
noncomputable def softmaxDenom (row : List (Option ℝ)) : ℝ :=
  ((row.filterMap id).map Real.exp).sum

/-- torch.softmax on a row whose entries are finite scores or -inf (line 55):
exp(-inf) = 0, so a masked entry gets weight 0 and the normalizer sums exp
over the unmasked entries only. -/
noncomputable def maskedSoftmaxRow (row : List (Option ℝ)) : List ℝ :=
  row.map (fun o => match o with
    | none => 0
    | some x => Real.exp x / softmaxDenom row)

/-- Sum of a list of vectors of equal width. -/
noncomputable def sumVecs : List Vec → Vec
  | [] => []
  | [v] => v
  | v :: vs => addVec v (sumVecs vs)

/-- Context vector (the bmm on line 58): attention-weighted sum of the
encoder output vectors of one sequence. -/
noncomputable def weightedSum (w : List ℝ) (vs : List Vec) : Vec :=
  sumVecs (List.zipWith (fun c v2 => v2.map (fun x => c * x)) w vs)

/-- Attention weights of every batch element at one target step (lines
48–55): scores, masked_fill, softmax; `none` if masked_fill fails on shapes
or the batch dimensions of the three inputs disagree. -/
noncomputable def attnStepRows (A : BahdanauAttention) :
    List (List Vec) → List Vec → List (List Bool) → Option (List (List ℝ))
  | [], [], [] => some []
  | e :: es, q :: qs, mk :: ms =>
    ((maskedFillRow (scoresRow A e q) mk).map maskedSoftmaxRow).bind
      (fun r => (attnStepRows A es qs ms).map (fun rs => r :: rs))
  | _, _, _ => none

/-- One iteration of the loop in BahdanauAttention.forward: the per-batch
attention distributions at one target step. -/
noncomputable def attnStep (A : BahdanauAttention) (enc : List (List Vec))
    (lengths : List ℕ) (qs : List Vec) : Option (List (List ℝ)) :=
  attnStepRows A enc qs (sequence_mask lengths)

/-- query[:, t, :]: the step-t query vector of every batch element. -/
def queryCol (query : List (List Vec)) (t : ℕ) : List Vec :=
  query.map (fun qb => qb.getD t [])

/-- max_tgt_len = query.size(1) (line 38). -/
def maxTgtLen (query : List (List Vec)) : ℕ := query.headI.length

/-- Evaluate an Option-valued function on every element, failing if any
single evaluation fails. -/
def optionMapAll {α β : Type} (f : α → Option β) : List α → Option (List β)
  | [] => some []
  | a :: l => (f a).bind (fun b => (optionMapAll f l).map (fun bs => b :: bs))

/-- torch.stack(context_vectors, dim=1) (line 63): result[b][t] is the step-t
context of batch element b; the batch size B is the one read off
encoder_outputs on line 37. -/
def stackDim1 (B : ℕ) (steps : List (List Vec)) : List (List Vec) :=
  (List.range B).map (fun b => steps.map (fun s => s.getD b []))

/-- BahdanauAttention.forward (lines 28–65): loop over the target steps,
computing per-step attention weights and context vectors; returns the
stacked context vectors of all steps together with the weights of the LAST
step only (the loop variable attention_weights at return time).  `none`
models a runtime error: a masked_fill shape failure, mismatched batch
dimensions, or max_tgt_len = 0, in which case the returned variable
attention_weights was never assigned. -/
noncomputable def attnForward (A : BahdanauAttention) (query enc : List (List Vec))
    (lengths : List ℕ) : Option (List (List Vec) × List (List ℝ)) :=
  (optionMapAll (fun t => attnStep A enc lengths (queryCol query t))
      (List.range (maxTgtLen query))).bind
    (fun Ws => Ws.getLast?.map (fun w =>
      (stackDim1 enc.length (Ws.map (fun W => List.zipWith weightedSum W enc)), w)))

/-- torch.cat along dim 2 of two (layers, batch, H) tensors. -/
def catDim2 (a b : List (List Vec)) : List (List Vec) :=
  List.zipWith (fun x y => List.zipWith (· ++ ·) x y) a b

/-- A recurrent state: a pair of (layers, batch, H) tensors (h, c). -/
abbrev DecState := List (List Vec) × List (List Vec)

/-- reshape_state (models.py lines 7–12): state[:-1] and state[1:] of each
tensor, concatenated along the feature dimension. -/
def reshape_state (state : DecState) : DecState :=
  (catDim2 state.1.dropLast (state.1.drop 1), catDim2 state.2.dropLast (state.2.drop 1))

/-- Decoder.forward lines 192–193: reshape the incoming state exactly when
its leading dimension equals 2, otherwise pass it through unchanged. -/
def prepDecState (st : DecState) : DecState :=
  if st.1.length = 2 then reshape_state st else st

/-- Decoder parameters: target embedding, the single-layer unidirectional
LSTM, the optional attention module and, when attention is present, the
attn_combine linear layer. -/
structure DecoderM where
  hiddenSize : ℕ
  embedding : Mat
  lstm : LSTMCellW
  attn : Option BahdanauAttention
  combineW : Mat
  combineB : Vec

/-- Decoder.forward (lines 177–226): prepare the state, embed the target
tokens with dropout, run the LSTM over the whole target sequence
(teacher forcing), optionally fuse the attention context (concatenate,
linear attn_combine, tanh), and apply the final dropout.  `none` models a
runtime error: a state whose leading dimension is not 1 after preparation is
rejected by the single-layer nn.LSTM, and an attention failure propagates. -/
noncomputable def decoderForward (d : DecoderM) (tgt : List (List ℕ)) (decState : DecState)
    (enc : List (List Vec)) (lengths : List ℕ) : Option (List (List Vec) × DecState) :=
  let st := prepDecState decState
  if st.1.length = 1 ∧ st.2.length = 1 then
    let embedded := tgt.map (fun row => (row.map (embed d.embedding)).map dropoutEval)
    let runs := List.zipWith (fun x hc => lstmRun d.lstm hc.1 hc.2 x) embedded
      (st.1.headI.zip st.2.headI)
    let output := runs.map (fun r => r.1)
    let fin : DecState := ([runs.map (fun r => r.2.1)], [runs.map (fun r => r.2.2)])
    match d.attn with
    | none => some (dropoutEval output, fin)
    | some A =>
      match attnForward A output enc lengths with
      | none => none
      | some (ctx, _) =>
        some (dropoutEval (List.zipWith (fun ob cb =>
          List.zipWith (fun o c => (linear d.combineW d.combineB (o ++ c)).map Real.tanh) ob cb)
          output ctx), fin)
  else
    none

/-- Parameter storage model for weight tying: each tensor parameter carries a
storage id, and two parameters are the same tensor object exactly when their
storage ids are equal. -/
structure ParamRef where
  storageId : ℕ
deriving DecidableEq

/-- A linear layer viewed at the parameter-storage level. -/
structure LinearIds where
  weight : ParamRef

/-- An embedding table viewed at the parameter-storage level. -/
structure EmbeddingIds where
  weight : ParamRef

/-- The decoder viewed at the parameter-storage level. -/
structure DecoderIds where
  embedding : EmbeddingIds

/-- The composed model viewed at the parameter-storage level. -/
structure Seq2SeqIds where
  decoder : DecoderIds
  generator : LinearIds

/-- Seq2Seq.__init__ lines 247–249: nn.Linear allocates the generator with a
fresh weight tensor, and the following assignment rebinds generator.weight
to the decoder embedding's weight tensor. -/
def seq2seqInit (decoder : DecoderIds) (freshWeightId : ℕ) : Seq2SeqIds :=
  let generator0 : LinearIds := { weight := ⟨freshWeightId⟩ }
  let generator1 : LinearIds := { generator0 with weight := decoder.embedding.weight }
  { decoder := decoder, generator := generator1 }

/-- Builds an LSTM direction whose four gates share the given blocks; used
only to assemble small concrete witness inputs. -/
def mkCell (wx wh : Mat) (bx bh : Vec) : LSTMCellW :=
  ⟨wx, wh, bx, bh, wx, wh, bx, bh, wx, wh, bx, bh, wx, wh, bx, bh⟩

/-- A concrete attention module with hidden size 1 and zero weights. -/
noncomputable def Atriv : BahdanauAttention := ⟨[[0]], [[0]], [0]⟩

/-- A concrete encoder for configured hidden size 2 (internal H = 1). -/
noncomputable def E2 : EncoderM := ⟨1, [[0, 0]], mkCell [[0, 0]] [[0]] [0] [0], mkCell [[0, 0]] [[0]] [0] [0]⟩

/-- A concrete encoder for configured hidden size 3 (internal H = 3 / 2 = 1). -/
noncomputable def E3 : EncoderM := ⟨1, [[0, 0, 0]], mkCell [[0, 0, 0]] [[0]] [0] [0], mkCell [[0, 0, 0]] [[0]] [0] [0]⟩

/-- A concrete attention-free decoder with hidden size 1. -/
noncomputable def D0 : DecoderM := ⟨1, [[0]], mkCell [[0]] [[0]] [0] [0], none, [], []⟩

/-- A concrete recurrent state with leading dimension 2 (batch 1, H 1). -/
noncomputable def stDim2 : DecState := ([[[0]], [[1]]], [[[0]], [[1]]])

/-- A concrete recurrent state with leading dimension 3 (batch 1, H 1). -/
noncomputable def stDim3 : DecState := ([[[0]], [[1]], [[2]]], [[[0]], [[1]], [[2]]])

/-- Shape well-formedness of one LSTM direction: every gate weight matrix has
H rows and every gate bias has width H, as in an nn.LSTM of hidden size H. -/
def cellWF (w : LSTMCellW) (H : ℕ) : Prop :=
  w.Wxi.length = H ∧ w.Whi.length = H ∧ w.bxi.length = H ∧ w.bhi.length = H ∧
  w.Wxf.length = H ∧ w.Whf.length = H ∧ w.bxf.length = H ∧ w.bhf.length = H ∧
  w.Wxg.length = H ∧ w.Whg.length = H ∧ w.bxg.length = H ∧ w.bhg.length = H ∧
  w.Wxo.length = H ∧ w.Who.length = H ∧ w.bxo.length = H ∧ w.bho.length = H

/-- Shape well-formedness of an encoder built by Encoder.__init__ with the
given configured hidden size: the stored recurrent hidden size is the halved
configured size, and both LSTM directions have that hidden size. -/
def EncoderWF (e : EncoderM) (hidden_size : ℕ) : Prop :=
  e.H = encoderHiddenSize hidden_size ∧ cellWF e.fw e.H ∧ cellWF e.bw e.H

/- ------------------------------------------------------------------
List index toolkit
------------------------------------------------------------------ -/

theorem getD_map_lt {α β : Type} (f : α → β) (l : List α) (i : ℕ) (hi : i < l.length)
    (d : β) (d0 : α) : (l.map f).getD i d = f (l.getD i d0) := by
  rw [List.getD_eq_getElem _ _ (by simpa using hi), List.getD_eq_getElem _ _ hi,
    List.getElem_map]

theorem getD_zipWith_lt {α β γ : Type} (f : α → β → γ) (as : List α) (bs : List β) (i : ℕ)
    (ha : i < as.length) (hb : i < bs.length) (d : γ) (da : α) (db : β) :
    (List.zipWith f as bs).getD i d = f (as.getD i da) (bs.getD i db) := by
  rw [List.getD_eq_getElem _ _ (by simp [List.length_zipWith]; omega),
    List.getD_eq_getElem _ _ ha, List.getD_eq_getElem _ _ hb, List.getElem_zipWith]

theorem getD_range_lt (n i : ℕ) (hi : i < n) (d : ℕ) : (List.range n).getD i d = i := by
  rw [List.getD_eq_getElem _ _ (by simpa using hi), List.getElem_range]

theorem mem_zipWith {α β γ : Type} (f : α → β → γ) (as : List α) (bs : List β) (x : γ)
    (hx : x ∈ List.zipWith f as bs) : ∃ a ∈ as, ∃ b ∈ bs, x = f a b := by
  induction as generalizing bs with
  | nil => simp at hx
  | cons a as ih =>
    cases bs with
    | nil => simp at hx
    | cons b bs =>
      rcases List.mem_cons.mp hx with rfl | h2
      · exact ⟨a, List.mem_cons_self a as, b, List.mem_cons_self b bs, rfl⟩
      · rcases ih bs h2 with ⟨a2, ha2, b2, hb2, rfl⟩
        exact ⟨a2, List.mem_cons_of_mem a ha2, b2, List.mem_cons_of_mem b hb2, rfl⟩

theorem getLast?_eq_some_getD {α : Type} (l : List α) (w : α) (h : l.getLast? = some w)
    (d : α) : 0 < l.length ∧ w = l.getD (l.length - 1) d := by
  induction l with
  | nil => simp at h
  | cons a l ih =>
    cases l with
    | nil =>
      simp [List.getLast?] at h
      simp [h]
    | cons b t =>
      rw [List.getLast?_cons_cons] at h
      rcases ih h with ⟨h1, h2⟩
      refine ⟨by simp, ?_⟩
      have hlen : (a :: b :: t).length - 1 = (b :: t).length - 1 + 1 := by
        simp [List.length_cons]
      rw [hlen, List.getD_cons_succ]
      exact h2

/- ------------------------------------------------------------------
optionMapAll lemmas
------------------------------------------------------------------ -/

theorem optionMapAll_some_length {α β : Type} (f : α → Option β) (l : List α) (ys : List β)
    (h : optionMapAll f l = some ys) : ys.length = l.length := by
  induction l generalizing ys with
  | nil =>
    simp only [optionMapAll] at h
    cases h
    rfl
  | cons a l ih =>
    cases hfa : f a with
    | none => simp [optionMapAll, hfa] at h
    | some b =>
      cases hrest : optionMapAll f l with
      | none => simp [optionMapAll, hfa, hrest] at h
      | some bs =>
        simp only [optionMapAll, hfa, hrest, Option.some_bind, Option.map_some'] at h
        cases h
        simp [ih bs hrest]

theorem optionMapAll_some_getD {α β : Type} (f : α → Option β) (l : List α) (ys : List β)
    (h : optionMapAll f l = some ys) (i : ℕ) (hi : i < l.length) (d : α) (d2 : β) :
    f (l.getD i d) = some (ys.getD i d2) := by
  induction l generalizing ys i with
  | nil => simp at hi
  | cons a l ih =>
    cases hfa : f a with
    | none => simp [optionMapAll, hfa] at h
    | some b =>
      cases hrest : optionMapAll f l with
      | none => simp [optionMapAll, hfa, hrest] at h
      | some bs =>
        simp only [optionMapAll, hfa, hrest, Option.some_bind, Option.map_some'] at h
        cases h
        cases i with
        | zero => simpa using hfa
        | succ i =>
          rw [List.getD_cons_succ, List.getD_cons_succ]
          exact ih bs hrest i (by simpa using hi)

theorem optionMapAll_isSome_iff {α β : Type} (f : α → Option β) (l : List α) :
    (optionMapAll f l).isSome = true ↔ ∀ a ∈ l, (f a).isSome = true := by
  induction l with
  | nil => simp [optionMapAll]
  | cons a l ih =>
    cases hfa : f a with
    | none => simp [optionMapAll, hfa]
    | some b =>
      cases hrest : optionMapAll f l with
      | none =>
        rw [← hrest] at *
        simp [optionMapAll, hfa, ih]
      | some bs =>
        rw [← hrest] at *
        simp [optionMapAll, hfa, ih]

/- ------------------------------------------------------------------
maxLen, maskRow, maskedFillRow lemmas
------------------------------------------------------------------ -/

theorem mem_le_maxLen (lengths : List ℕ) (L : ℕ) (h : L ∈ lengths) : L ≤ maxLen lengths := by
  induction lengths with
  | nil => simp at h
  | cons a t ih =>
    rcases List.mem_cons.mp h with rfl | h2
    · exact le_max_left _ _
    · exact le_trans (ih h2) (le_max_right _ _)

theorem length_maskRow (m L : ℕ) : (maskRow m L).length = m := by simp [maskRow]

theorem getD_maskRow (m L i : ℕ) (hi : i < m) (d : Bool) :
    (maskRow m L).getD i d = decide (i < L) := by
  unfold maskRow
  rw [getD_map_lt _ _ i (by simpa using hi) d 0, getD_range_lt m i hi 0]

theorem maskedFillRow_isSome_iff (srow : List ℝ) (mrow : List Bool) :
    (maskedFillRow srow mrow).isSome = true ↔
      (mrow.length = srow.length ∨ mrow.length = 1) := by
  by_cases h1 : mrow.length = srow.length
  · unfold maskedFillRow
    rw [if_pos h1]
    simp [h1]
  · by_cases h2 : mrow.length = 1
    · unfold maskedFillRow
      rw [if_neg h1, if_pos h2]
      simp [h2]
    · have h3 : maskedFillRow srow mrow = none := by
        unfold maskedFillRow
        rw [if_neg h1, if_neg h2]
      rw [h3]
      simp [h1, h2]

theorem maskedFillRow_exact (srow : List ℝ) (mrow : List Bool)
    (h : mrow.length = srow.length) :
    maskedFillRow srow mrow =
      some (List.zipWith (fun s keep => if keep then some s else none) srow mrow) := by
  unfold maskedFillRow
  rw [if_pos h]

theorem maskedFillRow_broadcast (srow : List ℝ) (mrow : List Bool)
    (hne : ¬ mrow.length = srow.length) (h1 : mrow.length = 1) :
    maskedFillRow srow mrow =
      some (srow.map (fun s => if mrow.headI then some s else none)) := by
  unfold maskedFillRow
  rw [if_neg hne, if_pos h1]

/- ------------------------------------------------------------------
masked softmax lemmas
------------------------------------------------------------------ -/

theorem length_maskedSoftmaxRow (row : List (Option ℝ)) :
    (maskedSoftmaxRow row).length = row.length := by
  simp [maskedSoftmaxRow]

theorem softmaxDenom_nonneg (row : List (Option ℝ)) : 0 ≤ softmaxDenom row := by
  unfold softmaxDenom
  apply List.sum_nonneg
  intro a ha
  rcases List.mem_map.mp ha with ⟨z, _, rfl⟩
  exact le_of_lt (Real.exp_pos z)

theorem softmaxDenom_pos (row : List (Option ℝ)) (x : ℝ) (hx : some x ∈ row) :
    0 < softmaxDenom row := by
  unfold softmaxDenom
  apply List.sum_pos
  · intro a ha
    rcases List.mem_map.mp ha with ⟨z, _, rfl⟩
    exact Real.exp_pos z
  · have h1 : x ∈ row.filterMap id := List.mem_filterMap.mpr ⟨some x, hx, rfl⟩
    intro h2
    rw [List.map_eq_nil_iff] at h2
    rw [h2] at h1
    simp at h1

theorem maskedSoftmaxRow_nonneg (row : List (Option ℝ)) (x : ℝ)
    (hx : x ∈ maskedSoftmaxRow row) : 0 ≤ x := by
  unfold maskedSoftmaxRow at hx
  rcases List.mem_map.mp hx with ⟨o, _, rfl⟩
  cases o with
  | none => simp
  | some y => exact div_nonneg (le_of_lt (Real.exp_pos y)) (softmaxDenom_nonneg row)

theorem sum_map_div_entries (Z : ℝ) (row : List (Option ℝ)) :
    (row.map (fun o => match o with | none => 0 | some x => Real.exp x / Z)).sum
      = ((row.filterMap id).map Real.exp).sum / Z := by
  induction row with
  | nil => simp
  | cons o t ih =>
    cases o with
    | none => simpa using ih
    | some y =>
      simp only [List.map_cons, List.sum_cons, List.filterMap_cons]
      simp only [id]
      simp only [List.map_cons, List.sum_cons]
      rw [ih, add_div]

theorem sum_maskedSoftmaxRow (row : List (Option ℝ)) (x : ℝ) (hx : some x ∈ row) :
    (maskedSoftmaxRow row).sum = 1 := by
  unfold maskedSoftmaxRow
  rw [sum_map_div_entries (softmaxDenom row) row]
  have h1 : ((row.filterMap id).map Real.exp).sum = softmaxDenom row := rfl
  rw [h1]
  exact div_self (ne_of_gt (softmaxDenom_pos row x hx))

theorem maskedSoftmaxRow_getD_none (row : List (Option ℝ)) (j : ℕ)
    (h : row.getD j none = none) : (maskedSoftmaxRow row).getD j 0 = 0 := by
  by_cases hj : j < row.length
  · unfold maskedSoftmaxRow
    rw [getD_map_lt _ row j hj 0 none, h]
  · have hlen : (maskedSoftmaxRow row).length ≤ j := by
      rw [length_maskedSoftmaxRow]
      omega
    exact List.getD_eq_default _ _ hlen

/- ------------------------------------------------------------------
attnStepRows lemmas
------------------------------------------------------------------ -/

theorem length_scoresRow (A : BahdanauAttention) (encRow : List Vec) (q : Vec) :
    (scoresRow A encRow q).length = encRow.length := by
  simp [scoresRow]

theorem attnStepRows_some (A : BahdanauAttention) (es : List (List Vec)) (qs : List Vec)
    (ms : List (List Bool)) (W : List (List ℝ)) (h : attnStepRows A es qs ms = some W) :
    es.length = qs.length ∧ qs.length = ms.length ∧ W.length = es.length ∧
    ∀ b, b < es.length →
      (maskedFillRow (scoresRow A (es.getD b []) (qs.getD b [])) (ms.getD b [])).map
        maskedSoftmaxRow = some (W.getD b []) := by
  induction es generalizing qs ms W with
  | nil =>
    cases qs with
    | nil =>
      cases ms with
      | nil =>
        simp only [attnStepRows] at h
        cases h
        simp
      | cons mk ms => simp [attnStepRows] at h
    | cons q qs => simp [attnStepRows] at h
  | cons e es ih =>
    cases qs with
    | nil => simp [attnStepRows] at h
    | cons q qs =>
      cases ms with
      | nil => simp [attnStepRows] at h
      | cons mk ms =>
        cases hmf : (maskedFillRow (scoresRow A e q) mk).map maskedSoftmaxRow with
        | none => simp [attnStepRows, hmf] at h
        | some r =>
          cases hrest : attnStepRows A es qs ms with
          | none => simp [attnStepRows, hmf, hrest] at h
          | some rs =>
            simp only [attnStepRows, hmf, hrest, Option.some_bind, Option.map_some'] at h
            cases h
            rcases ih qs ms rs hrest with ⟨h1, h2, h3, h4⟩
            refine ⟨by simp [h1], by simp [h2], by simp [h3], ?_⟩
            intro b hb
            cases b with
            | zero => simpa using hmf
            | succ b =>
              simp only [List.getD_cons_succ]
              exact h4 b (by simpa using hb)

theorem attnStepRows_isSome_of (A : BahdanauAttention) (es : List (List Vec)) (qs : List Vec)
    (ms : List (List Bool)) (h1 : es.length = qs.length) (h2 : qs.length = ms.length)
    (h3 : ∀ b, b < es.length →
      (maskedFillRow (scoresRow A (es.getD b []) (qs.getD b [])) (ms.getD b [])).isSome = true) :
    (attnStepRows A es qs ms).isSome = true := by
  induction es generalizing qs ms with
  | nil =>
    cases qs with
    | nil =>
      cases ms with
      | nil => simp [attnStepRows]
      | cons mk ms => simp at h2
    | cons q qs => simp at h1
  | cons e es ih =>
    cases qs with
    | nil => simp at h1
    | cons q qs =>
      cases ms with
      | nil => simp at h2
      | cons mk ms =>
        have hhead : (maskedFillRow (scoresRow A e q) mk).isSome = true := by
          simpa using h3 0 (by simp)
        have htail : (attnStepRows A es qs ms).isSome = true := by
          apply ih qs ms (by simpa using h1) (by simpa using h2)
          intro b hb
          simpa using h3 (b + 1) (by simpa using hb)
        rcases Option.isSome_iff_exists.mp hhead with ⟨r, hr⟩
        rcases Option.isSome_iff_exists.mp htail with ⟨rs, hrs⟩
        simp [attnStepRows, hr, hrs]

/- ------------------------------------------------------------------
attnStep and attnForward characterization
------------------------------------------------------------------ -/

theorem length_sequence_mask (lengths : List ℕ) :
    (sequence_mask lengths).length = lengths.length := by
  simp [sequence_mask]

theorem getD_sequence_mask (lengths : List ℕ) (b : ℕ) (hb : b < lengths.length) :
    (sequence_mask lengths).getD b [] = maskRow (maxLen lengths) (lengths.getD b 0) := by
  unfold sequence_mask
  rw [getD_map_lt _ lengths b hb [] 0]

theorem length_queryCol (query : List (List Vec)) (t : ℕ) :
    (queryCol query t).length = query.length := by
  simp [queryCol]

theorem attnStep_isSome_iff (A : BahdanauAttention) (enc : List (List Vec)) (lengths : List ℕ)
    (qs : List Vec) (hq : enc.length = qs.length) (hl : enc.length = lengths.length) :
    (attnStep A enc lengths qs).isSome = true ↔
      (∀ e ∈ enc, maxLen lengths = e.length ∨ maxLen lengths = 1) := by
  constructor
  · intro h
    rcases Option.isSome_iff_exists.mp h with ⟨W, hW⟩
    rcases attnStepRows_some A enc qs (sequence_mask lengths) W hW with ⟨_, _, _, h4⟩
    intro e he
    rcases List.mem_iff_getElem.mp he with ⟨b, hb, rfl⟩
    have h5 := h4 b hb
    have h6 : (maskedFillRow (scoresRow A (enc.getD b []) (qs.getD b []))
        ((sequence_mask lengths).getD b [])).isSome = true := by
      rcases Option.map_eq_some'.mp h5 with ⟨r, hr, _⟩
      rw [hr]
      rfl
    rw [getD_sequence_mask lengths b (by omega)] at h6
    rw [maskedFillRow_isSome_iff, length_maskRow, length_scoresRow] at h6
    rw [List.getD_eq_getElem enc [] hb] at h6
    exact h6
  · intro h
    apply attnStepRows_isSome_of A enc qs (sequence_mask lengths) hq
      (by rw [← hq, hl, length_sequence_mask])
    intro b hb
    rw [getD_sequence_mask lengths b (by omega)]
    rw [maskedFillRow_isSome_iff, length_maskRow, length_scoresRow]
    have hmem : enc.getD b [] ∈ enc := by
      rw [List.getD_eq_getElem enc [] hb]
      exact List.getElem_mem hb
    exact h (enc.getD b []) hmem

theorem attnForward_isSome_iff (A : BahdanauAttention) (query enc : List (List Vec))
    (lengths : List ℕ) (hq : query.length = enc.length) (hl : enc.length = lengths.length) :
    (attnForward A query enc lengths).isSome = true ↔
      (0 < maxTgtLen query ∧ ∀ e ∈ enc, maxLen lengths = e.length ∨ maxLen lengths = 1) := by
  have hstep : ∀ t, (attnStep A enc lengths (queryCol query t)).isSome = true ↔
      (∀ e ∈ enc, maxLen lengths = e.length ∨ maxLen lengths = 1) := by
    intro t
    exact attnStep_isSome_iff A enc lengths (queryCol query t)
      (by rw [length_queryCol, hq]) hl
  unfold attnForward
  cases hm : optionMapAll (fun t => attnStep A enc lengths (queryCol query t))
      (List.range (maxTgtLen query)) with
  | none =>
    simp only [Option.none_bind]
    constructor
    · intro h
      simp at h
    · rintro ⟨hT, hcond⟩
      have h2 : (optionMapAll (fun t => attnStep A enc lengths (queryCol query t))
          (List.range (maxTgtLen query))).isSome = true := by
        rw [optionMapAll_isSome_iff]
        intro t _
        exact (hstep t).mpr hcond
      rw [hm] at h2
      simp at h2
  | some Ws =>
    have hlen := optionMapAll_some_length _ _ _ hm
    rw [List.length_range] at hlen
    cases hlast : Ws.getLast? with
    | none =>
      rw [List.getLast?_eq_none_iff] at hlast
      subst hlast
      simp only [Option.some_bind, List.getLast?_nil, Option.map_none']
      constructor
      · intro h
        simp at h
      · rintro ⟨hT, _⟩
        simp at hlen
        omega
    | some w =>
      simp only [Option.some_bind, hlast, Option.map_some']
      constructor
      · intro _
        have hne : Ws ≠ [] := by
          intro h0
          rw [h0] at hlast
          simp at hlast
        have hT : 0 < maxTgtLen query := by
          cases Ws with
          | nil => exact absurd rfl hne
          | cons a t =>
            simp only [List.length_cons] at hlen
            omega
        refine ⟨hT, ?_⟩
        have h5 := optionMapAll_some_getD _ _ _ hm 0 (by simpa using hT) 0 []
        rw [getD_range_lt _ 0 (by simpa using hT) 0] at h5
        exact (hstep 0).mp (by simp [h5])
      · intro _
        simp

/- ------------------------------------------------------------------
masked-fill row structure lemmas
------------------------------------------------------------------ -/

theorem getD_mem_of_lt {α : Type} (l : List α) (j : ℕ) (hj : j < l.length) (d : α) :
    l.getD j d ∈ l := by
  rw [List.getD_eq_getElem l d hj]
  exact List.getElem_mem hj

theorem length_maskFilled (srow : List ℝ) (m L : ℕ) (hm : srow.length = m) :
    (List.zipWith (fun s keep => if keep then some s else none) srow (maskRow m L)).length
      = m := by
  rw [List.length_zipWith, length_maskRow, hm, min_self]

theorem getD_maskFilled_ge (srow : List ℝ) (m L j : ℕ) (hm : srow.length = m) (hj : L ≤ j) :
    (List.zipWith (fun s keep => if keep then some s else none) srow
      (maskRow m L)).getD j none = none := by
  by_cases hjm : j < m
  · rw [getD_zipWith_lt _ srow (maskRow m L) j (by omega)
      (by rw [length_maskRow]; omega) none 0 false]
    rw [getD_maskRow m L j hjm false]
    have h2 : ¬ (j < L) := by omega
    simp [h2]
  · apply List.getD_eq_default
    rw [length_maskFilled srow m L hm]
    omega

theorem getD_maskFilled_lt (srow : List ℝ) (m L j : ℕ) (hm : srow.length = m) (hj : j < L)
    (hjm : j < m) :
    (List.zipWith (fun s keep => if keep then some s else none) srow
      (maskRow m L)).getD j none = some (srow.getD j 0) := by
  rw [getD_zipWith_lt _ srow (maskRow m L) j (by omega)
    (by rw [length_maskRow]; omega) none 0 false]
  rw [getD_maskRow m L j hjm false]
  simp [hj]

theorem maskedSoftmax_maskRow_props (srow : List ℝ) (m L : ℕ) (hm : srow.length = m)
    (hL : 0 < L) (hLm : L ≤ m) :
    (∀ x ∈ maskedSoftmaxRow (List.zipWith (fun s keep => if keep then some s else none)
        srow (maskRow m L)), 0 ≤ x) ∧
    (maskedSoftmaxRow (List.zipWith (fun s keep => if keep then some s else none)
        srow (maskRow m L))).sum = 1 ∧
    (maskedSoftmaxRow (List.zipWith (fun s keep => if keep then some s else none)
        srow (maskRow m L))).length = m ∧
    (∀ j, L ≤ j → (maskedSoftmaxRow (List.zipWith (fun s keep => if keep then some s else none)
        srow (maskRow m L))).getD j 0 = 0) := by
  have hsome : some (srow.getD 0 0) ∈
      List.zipWith (fun s keep => if keep then some s else none) srow (maskRow m L) := by
    rw [← getD_maskFilled_lt srow m L 0 hm hL (by omega)]
    apply getD_mem_of_lt
    rw [length_maskFilled srow m L hm]
    omega
  refine ⟨fun x hx => maskedSoftmaxRow_nonneg _ x hx,
    sum_maskedSoftmaxRow _ _ hsome, ?_, ?_⟩
  · rw [length_maskedSoftmaxRow, length_maskFilled srow m L hm]
  · intro j hj
    exact maskedSoftmaxRow_getD_none _ j (getD_maskFilled_ge srow m L j hm hj)

theorem maskFilled_all_true (srow : List ℝ) (mrow : List Bool)
    (hlen : mrow.length = srow.length) (htrue : ∀ b ∈ mrow, b = true) :
    List.zipWith (fun s keep => if keep then some s else none) srow mrow = srow.map some := by
  induction srow generalizing mrow with
  | nil => simp
  | cons s t ih =>
    cases mrow with
    | nil => simp at hlen
    | cons b mb =>
      have hb : b = true := htrue b (List.mem_cons_self b mb)
      subst hb
      simp only [List.zipWith_cons_cons, List.map_cons, if_true]
      rw [ih mb (by simpa using hlen) (fun x hx => htrue x (List.mem_cons_of_mem _ hx))]

theorem maskRow_self_all_true (m : ℕ) : ∀ b ∈ maskRow m m, b = true := by
  intro b hb
  unfold maskRow at hb
  rcases List.mem_map.mp hb with ⟨j, hj, rfl⟩
  exact decide_eq_true (List.mem_range.mp hj)

/- ------------------------------------------------------------------
LSTM and encoder shape lemmas
------------------------------------------------------------------ -/

theorem length_matVec (W : Mat) (x : Vec) : (matVec W x).length = W.length := by
  simp [matVec]

theorem length_addVec (a b : Vec) : (addVec a b).length = min a.length b.length := by
  simp [addVec]

theorem length_mulVec (a b : Vec) : (mulVec a b).length = min a.length b.length := by
  simp [mulVec]

theorem lstmCell_snd (w : LSTMCellW) (x h c : Vec) : (lstmCell w x h c).2 =
    addVec
      (mulVec ((addVec (addVec (matVec w.Wxf x) w.bxf)
        (addVec (matVec w.Whf h) w.bhf)).map sigmoid) c)
      (mulVec ((addVec (addVec (matVec w.Wxi x) w.bxi)
        (addVec (matVec w.Whi h) w.bhi)).map sigmoid)
       ((addVec (addVec (matVec w.Wxg x) w.bxg)
        (addVec (matVec w.Whg h) w.bhg)).map Real.tanh)) := rfl

theorem lstmCell_fst (w : LSTMCellW) (x h c : Vec) : (lstmCell w x h c).1 =
    mulVec ((addVec (addVec (matVec w.Wxo x) w.bxo)
      (addVec (matVec w.Who h) w.bho)).map sigmoid)
      ((lstmCell w x h c).2.map Real.tanh) := rfl

theorem lstmCell_length (w : LSTMCellW) (H : ℕ) (hw : cellWF w H) (x h c : Vec)
    (hc : c.length = H) :
    (lstmCell w x h c).1.length = H ∧ (lstmCell w x h c).2.length = H := by
  obtain ⟨h1, h2, h3, h4, h5, h6, h7, h8, h9, h10, h11, h12, h13, h14, h15, h16⟩ := hw
  have hsnd : (lstmCell w x h c).2.length = H := by
    rw [lstmCell_snd]
    simp only [length_mulVec, length_addVec, length_matVec, List.length_map]
    simp only [h1, h2, h3, h4, h5, h6, h7, h8, h9, h10, h11, h12, hc, min_self]
  refine ⟨?_, hsnd⟩
  rw [lstmCell_fst]
  simp only [length_mulVec, length_addVec, length_matVec, List.length_map, hsnd]
  simp only [h13, h14, h15, h16, min_self]

theorem lstmRun_out_length (w : LSTMCellW) (h c : Vec) (xs : List Vec) :
    (lstmRun w h c xs).1.length = xs.length := by
  induction xs generalizing h c with
  | nil => rfl
  | cons x xs ih => simp [lstmRun, ih]

theorem lstmRun_out_widths (w : LSTMCellW) (H : ℕ) (hw : cellWF w H) (xs : List Vec) :
    ∀ (h c : Vec), c.length = H → ∀ v ∈ (lstmRun w h c xs).1, v.length = H := by
  induction xs with
  | nil =>
    intro h c hc v hv
    simp [lstmRun] at hv
  | cons x xs ih =>
    intro h c hc v hv
    simp only [lstmRun] at hv
    rcases List.mem_cons.mp hv with rfl | hv2
    · exact (lstmCell_length w H hw x h c hc).1
    · exact ih (lstmCell w x h c).1 (lstmCell w x h c).2 (lstmCell_length w H hw x h c hc).2 v hv2

theorem encoderSeqOut_widths (e : EncoderM) (srcSeq : List ℕ) (L m : ℕ)
    (hf : cellWF e.fw e.H) (hb : cellWF e.bw e.H) :
    ∀ row ∈ encoderSeqOut e srcSeq L m, row.length = 2 * e.H := by
  intro row hrow
  simp only [encoderSeqOut, dropoutEval] at hrow
  rcases List.mem_append.mp hrow with h1 | h2
  · rcases mem_zipWith _ _ _ _ h1 with ⟨a, ha, b, hbm, rfl⟩
    have hal : a.length = e.H :=
      lstmRun_out_widths e.fw e.H hf _ (zeros e.H) (zeros e.H) (by simp [zeros]) a ha
    have hbl : b.length = e.H :=
      lstmRun_out_widths e.bw e.H hb _ (zeros e.H) (zeros e.H) (by simp [zeros])
        b (List.mem_reverse.mp hbm)
    rw [List.length_append, hal, hbl]
    omega
  · rw [List.eq_of_mem_replicate h2]
    simp [zeros]

theorem encoderForward_widths (e : EncoderM) (hs : ℕ) (hwf : EncoderWF e hs)
    (src : List (List ℕ)) (lengths : List ℕ) :
    ∀ out ∈ (encoderForward e src lengths).1, ∀ row ∈ out, row.length = 2 * (hs / 2) := by
  obtain ⟨hH, hf, hb⟩ := hwf
  intro out hout row hrow
  simp only [encoderForward] at hout
  rcases mem_zipWith _ _ _ _ hout with ⟨s, _, L, _, rfl⟩
  have h1 := encoderSeqOut_widths e s L (maxLen lengths) hf hb row hrow
  rw [h1, hH]
  rfl

theorem encoderSeqOut_take_congr (e : EncoderM) (s1 s2 : List ℕ) (L m : ℕ)
    (hagree : s1.take L = s2.take L) :
    encoderSeqOut e s1 L m = encoderSeqOut e s2 L m := by
  unfold encoderSeqOut encInputs
  rw [hagree]

/- ------------------------------------------------------------------
stackDim1 lemmas
------------------------------------------------------------------ -/

theorem length_stackDim1 (B : ℕ) (steps : List (List Vec)) :
    (stackDim1 B steps).length = B := by
  simp [stackDim1]

theorem getD_stackDim1 (B : ℕ) (steps : List (List Vec)) (b : ℕ) (hb : b < B) :
    (stackDim1 B steps).getD b [] = steps.map (fun s => s.getD b []) := by
  unfold stackDim1
  rw [getD_map_lt _ _ b (by simpa using hb) [] 0, getD_range_lt B b hb 0]

/- ------------------------------------------------------------------
Claim theorems
------------------------------------------------------------------ -/

/-- C3: for every pair of state tensors of shape (2, batch, H), reshape_state
returns a pair of tensors of shape (1, batch, 2H), each equal to the
concatenation of the forward slice (index 0) and the backward slice (index 1)
along the feature axis. -/
theorem reshape_state_spec (h0 h1 c0 c1 : List Vec) (B H : ℕ)
    (hb0 : h0.length = B) (hb1 : h1.length = B) (hc0 : c0.length = B) (hc1 : c1.length = B)
    (hw0 : ∀ v ∈ h0, v.length = H) (hw1 : ∀ v ∈ h1, v.length = H)
    (hx0 : ∀ v ∈ c0, v.length = H) (hx1 : ∀ v ∈ c1, v.length = H) :
    reshape_state ([h0, h1], [c0, c1])
      = ([List.zipWith (· ++ ·) h0 h1], [List.zipWith (· ++ ·) c0 c1]) ∧
    (reshape_state ([h0, h1], [c0, c1])).1.length = 1 ∧
    (reshape_state ([h0, h1], [c0, c1])).2.length = 1 ∧
    (reshape_state ([h0, h1], [c0, c1])).1.headI.length = B ∧
    (reshape_state ([h0, h1], [c0, c1])).2.headI.length = B ∧
    (∀ v ∈ (reshape_state ([h0, h1], [c0, c1])).1.headI, v.length = 2 * H) ∧
    (∀ v ∈ (reshape_state ([h0, h1], [c0, c1])).2.headI, v.length = 2 * H) := by
  have he : reshape_state ([h0, h1], [c0, c1])
      = ([List.zipWith (· ++ ·) h0 h1], [List.zipWith (· ++ ·) c0 c1]) := rfl
  refine ⟨he, by simp [he], by simp [he], ?_, ?_, ?_, ?_⟩
  · rw [he]
    simp [List.length_zipWith, hb0, hb1]
  · rw [he]
    simp [List.length_zipWith, hc0, hc1]
  · rw [he]
    intro v hv
    rcases mem_zipWith _ _ _ _ (by simpa using hv) with ⟨a, ha, b, hbm, rfl⟩
    rw [List.length_append, hw0 a ha, hw1 b hbm]
    omega
  · rw [he]
    intro v hv
    rcases mem_zipWith _ _ _ _ (by simpa using hv) with ⟨a, ha, b, hbm, rfl⟩
    rw [List.length_append, hx0 a ha, hx1 b hbm]
    omega

/-- C3 witness: a concrete (2, 1, 1) state pairreshapes to the concatenation. -/
theorem reshape_state_spec_witness :
    reshape_state ([[[0]], [[1]]], [[[0]], [[1]]]) = ([[[0, 1]]], [[[0, 1]]]) := by
  have h := (reshape_state_spec [[0]] [[1]] [[0]] [[1]] 1 1 (by decide) (by decide)
    (by decide) (by decide) (by decide) (by decide) (by decide) (by decide)).1
  rw [h]
  rfl

/-- C4: after Seq2Seq construction, the generator weight is the same tensor
object (identity-equal storage) as the decoder target-embedding weight, so one
matrix serves as both embedding lookup and output projection. -/
theorem seq2seq_weight_tying (d : DecoderIds) (g : ℕ) :
    (seq2seqInit d g).generator.weight = d.embedding.weight := rfl

/-- C6: Decoder.forward applies reshape_state to the incoming state exactly
when its leading dimension equals 2; any other leading dimension is passed to
the recurrent layer unchanged, silently. -/
theorem decoder_reshape_dispatch (st : DecState) :
    (st.1.length = 2 → prepDecState st = reshape_state st) ∧
    (st.1.length ≠ 2 → prepDecState st = st) := by
  constructor
  · intro h
    unfold prepDecState
    rw [if_pos h]
  · intro h
    unfold prepDecState
    rw [if_neg h]

/-- C6 witness: a leading dimension of 2 is reshaped, a leading dimension of
3 is passed through unchanged. -/
theorem decoder_reshape_dispatch_witness :
    prepDecState stDim2 = reshape_state stDim2 ∧ prepDecState stDim3 = stDim3 :=
  ⟨(decoder_reshape_dispatch stDim2).1 rfl, (decoder_reshape_dispatch stDim3).2 (by decide)⟩

/-- C8: for a batch in which every declared length equals the batch's maximum
source length, the mask admits all positions and masked_fill replaces no score
by negative infinity. -/
theorem attn_full_lengths_no_mask (lengths : List ℕ)
    (hall : ∀ L ∈ lengths, L = maxLen lengths) :
    (∀ row ∈ sequence_mask lengths, ∀ b ∈ row, b = true) ∧
    (∀ srow : List ℝ, srow.length = maxLen lengths → ∀ L ∈ lengths,
      maskedFillRow srow (maskRow (maxLen lengths) L) = some (srow.map some)) := by
  constructor
  · intro row hrow
    rcases List.mem_map.mp hrow with ⟨L, hL, rfl⟩
    rw [hall L hL]
    exact maskRow_self_all_true (maxLen lengths)
  · intro srow hs L hL
    rw [hall L hL]
    rw [maskedFillRow_exact srow _ (by rw [length_maskRow, hs])]
    rw [maskFilled_all_true srow _ (by rw [length_maskRow, hs]) (maskRow_self_all_true _)]

/-- C8 witness: with lengths [2, 2] both scores of a width-2 row survive the
mask unchanged. -/
theorem attn_full_lengths_no_mask_witness :
    maskedFillRow [5, 7] (maskRow (maxLen [2, 2]) 2) = some [some 5, some 7] := by
  have h := (attn_full_lengths_no_mask [2, 2] (by decide)).2 [5, 7] (by decide) 2 (by decide)
  simpa using h

/-- C9: with attn = None the decoder output depends only on the target tokens
and the initial recurrent state: encoder outputs and source lengths are
ignored entirely. -/
theorem decoder_no_attn_ignores_encoder (d : DecoderM) (hattn : d.attn = none)
    (tgt : List (List ℕ)) (st : DecState) (enc enc2 : List (List Vec))
    (l l2 : List ℕ) :
    decoderForward d tgt st enc l = decoderForward d tgt st enc2 l2 := by
  simp [decoderForward, hattn]

/-- C9 witness: a concrete attention-free decoder produces identical results
on two batches that differ in encoder outputs and source lengths. -/
theorem decoder_no_attn_witness :
    decoderForward D0 [[0]] ([[[0]]], [[[0]]]) [[[1]]] [1]
      = decoderForward D0 [[0]] ([[[0]]], [[[0]]]) [[[2], [3]]] [2] :=
  decoder_no_attn_ignores_encoder D0 rfl [[0]] ([[[0]]], [[[0]]]) [[[1]]] [[[2], [3]]] [1] [2]

theorem length_encoderSeqOut (e : EncoderM) (s : List ℕ) (L m : ℕ) :
    (encoderSeqOut e s L m).length = min L s.length + (m - L) := by
  simp only [encoderSeqOut, dropoutEval, List.length_append, List.length_zipWith,
    lstmRun_out_length, List.length_reverse, List.length_replicate, encInputs,
    List.length_map, List.length_take, min_self]

/-- C2: two runs of Encoder.forward on source batches that agree at every
valid position (and share declared lengths) produce equal outputs at valid
positions: token content at or beyond a sequence's declared length cannot
influence them, by the pack/unpack discipline. -/
theorem encoder_pad_insensitive (e : EncoderM) (src src2 : List (List ℕ)) (lengths : List ℕ)
    (h1 : src.length = lengths.length) (h2 : src2.length = lengths.length)
    (hagree : ∀ b, b < lengths.length →
      (src.getD b []).take (lengths.getD b 0) = (src2.getD b []).take (lengths.getD b 0)) :
    ∀ b, b < lengths.length →
      ((encoderForward e src lengths).1.getD b []).take (lengths.getD b 0)
        = ((encoderForward e src2 lengths).1.getD b []).take (lengths.getD b 0) := by
  intro b hb
  have e1 : (encoderForward e src lengths).1.getD b []
      = encoderSeqOut e (src.getD b []) (lengths.getD b 0) (maxLen lengths) := by
    simp only [encoderForward]
    exact getD_zipWith_lt _ src lengths b (by omega) hb [] [] 0
  have e2 : (encoderForward e src2 lengths).1.getD b []
      = encoderSeqOut e (src2.getD b []) (lengths.getD b 0) (maxLen lengths) := by
    simp only [encoderForward]
    exact getD_zipWith_lt _ src2 lengths b (by omega) hb [] [] 0
  rw [e1, e2, encoderSeqOut_take_congr e _ _ _ _ (hagree b hb)]

/-- C2 witness: two concrete one-sequence batches of declared length 1 that
differ only in their second (padding) token give equal valid outputs. -/
theorem encoder_pad_insensitive_witness :
    ((encoderForward E2 [[0, 5]] [1]).1.getD 0 []).take 1
      = ((encoderForward E2 [[0, 9]] [1]).1.getD 0 []).take 1 := by
  have h := encoder_pad_insensitive E2 [[0, 5]] [[0, 9]] [1] (by decide) (by decide)
    (by decide) 0 (by decide)
  simpa using h

theorem encoderForward_single_mem (e : EncoderM) (s : List ℕ) (hs : 0 < s.length) :
    ((encoderForward e [s] [1]).1.getD 0 []) ∈ (encoderForward e [s] [1]).1 ∧
    (((encoderForward e [s] [1]).1.getD 0 []).getD 0 [])
      ∈ ((encoderForward e [s] [1]).1.getD 0 []) := by
  have hget : (encoderForward e [s] [1]).1.getD 0 [] = encoderSeqOut e s 1 (maxLen [1]) := by
    simp only [encoderForward]
    exact getD_zipWith_lt _ [s] [1] 0 (by simp) (by simp) [] [] 0
  constructor
  · apply getD_mem_of_lt
    simp only [encoderForward]
    simp [List.length_zipWith]
  · rw [hget]
    apply getD_mem_of_lt
    rw [length_encoderSeqOut]
    have hmin : min 1 s.length = 1 := min_eq_left hs
    have hmax : maxLen [1] = 1 := rfl
    rw [hmin, hmax]
    decide

/-- C7 (amended): the encoder's internal recurrent hidden size is the
configured size halved, and every output feature width is
2 * (hidden_size / 2); this equals the configured hidden size exactly when
the configured size is even (for odd sizes the width is hidden_size - 1). -/
theorem encoder_output_width (e : EncoderM) (hs : ℕ) (hwf : EncoderWF e hs)
    (src : List (List ℕ)) (lengths : List ℕ) :
    encoderHiddenSize hs = hs / 2 ∧
    (∀ out ∈ (encoderForward e src lengths).1, ∀ row ∈ out, row.length = 2 * (hs / 2)) ∧
    (hs % 2 = 0 → ∀ out ∈ (encoderForward e src lengths).1, ∀ row ∈ out, row.length = hs) := by
  refine ⟨rfl, encoderForward_widths e hs hwf src lengths, ?_⟩
  intro he out hout row hrow
  rw [encoderForward_widths e hs hwf src lengths out hout row hrow]
  omega

/-- C7 witness: for the even configured size 2, a concrete output row has
feature width 2. -/
theorem encoder_output_width_witness :
    2 % 2 = 0 ∧ EncoderWF E2 2 ∧
    (((encoderForward E2 [[0]] [1]).1.getD 0 []).getD 0 []).length = 2 := by
  have hwf : EncoderWF E2 2 := by
    unfold EncoderWF cellWF encoderHiddenSize E2 mkCell
    decide
  refine ⟨by decide, hwf, ?_⟩
  rcases encoderForward_single_mem E2 [0] (by decide) with ⟨hm1, hm2⟩
  exact (encoder_output_width E2 2 hwf [[0]] [1]).2.2 (by decide) _ hm1 _ hm2

/-- C7 counterexample: with the odd configured hidden size 3 the internal
size is 3 / 2 = 1 and a concrete output row has feature width 2, not the
configured 3. -/
theorem encoder_output_width_cex :
    encoderHiddenSize 3 = 1 ∧
    (((encoderForward E3 [[0]] [1]).1.getD 0 []).getD 0 []).length = 2 ∧
    (2 : ℕ) ≠ 3 := by
  have hwf : EncoderWF E3 3 := by
    unfold EncoderWF cellWF encoderHiddenSize E3 mkCell
    decide
  refine ⟨rfl, ?_, by decide⟩
  rcases encoderForward_single_mem E3 [0] (by decide) with ⟨hm1, hm2⟩
  have h := encoderForward_widths E3 3 hwf [[0]] [1] _ hm1 _ hm2
  simpa using h

/-- C1 (amended): for every batch whose encoder outputs all have source width
equal to max(src_lengths) (the shape in which masked_fill is exact, which is
the shape the composed model always produces) and whose declared lengths are
all positive, the attention weights computed at any target step inside
BahdanauAttention.forward are non-negative, sum to 1 over source positions,
and are exactly zero at every position at or beyond the sequence's declared
length. -/
theorem attn_weights_prob_dist (A : BahdanauAttention) (enc : List (List Vec))
    (lengths : List ℕ) (qs : List Vec) (W : List (List ℝ))
    (hW : attnStep A enc lengths qs = some W)
    (hwid : ∀ e2 ∈ enc, e2.length = maxLen lengths)
    (hpos : ∀ L ∈ lengths, 0 < L) :
    ∀ b, b < W.length →
      (∀ x ∈ W.getD b [], 0 ≤ x) ∧
      (W.getD b []).sum = 1 ∧
      (W.getD b []).length = maxLen lengths ∧
      (∀ j, lengths.getD b 0 ≤ j → (W.getD b []).getD j 0 = 0) := by
  intro b hb
  rcases attnStepRows_some A enc qs (sequence_mask lengths) W hW with ⟨_, hq2, hWlen, h4⟩
  rw [hWlen] at hb
  have hblen : b < lengths.length := by
    have := length_sequence_mask lengths
    omega
  have h5 := h4 b hb
  rw [getD_sequence_mask lengths b hblen] at h5
  have hencb : (enc.getD b []).length = maxLen lengths :=
    hwid _ (getD_mem_of_lt enc b hb [])
  have hexact : maskedFillRow (scoresRow A (enc.getD b []) (qs.getD b []))
      (maskRow (maxLen lengths) (lengths.getD b 0))
      = some (List.zipWith (fun s keep => if keep then some s else none)
          (scoresRow A (enc.getD b []) (qs.getD b []))
          (maskRow (maxLen lengths) (lengths.getD b 0))) :=
    maskedFillRow_exact _ _ (by rw [length_maskRow, length_scoresRow, hencb])
  rw [hexact, Option.map_some'] at h5
  have h6 := Option.some.inj h5
  have hL : lengths.getD b 0 ∈ lengths := getD_mem_of_lt lengths b hblen 0
  have hprops := maskedSoftmax_maskRow_props (scoresRow A (enc.getD b []) (qs.getD b []))
    (maxLen lengths) (lengths.getD b 0)
    (by rw [length_scoresRow, hencb]) (hpos _ hL) (mem_le_maxLen lengths _ hL)
  rw [← h6]
  exact ⟨hprops.1, hprops.2.1, hprops.2.2.1, fun j hj => hprops.2.2.2 j hj⟩

/-- C1 counterexample: the claim as stated fails for a batch where the
encoder outputs have 2 source positions but max(src_lengths) = 1: the
(batch, 1) mask broadcasts inside masked_fill, nothing is masked, forward
completes, and the weight at source position 1 — at/beyond the declared
length 1 — is 1/2, not zero. -/
theorem attn_weights_pad_cex :
    maxLen [1] = 1 ∧
    (([[(1 : ℝ)], [2]] : List (List ℝ)).length = 2) ∧
    attnStep Atriv [[[1], [2]]] [1] [[0]] = some [[1/2, 1/2]] ∧
    ((1 : ℝ)/2 ≠ 0) := by
  have hscore : scoresRow Atriv [[1], [2]] [0] = [0, 0] := by
    simp [scoresRow, Atriv, dot, matVec, addVec]
  have hmf : maskedFillRow [(0 : ℝ), 0] [true] = some [some 0, some 0] := rfl
  have hsd : softmaxDenom [some (0 : ℝ), some 0] = 2 := by
    simp [softmaxDenom, Real.exp_zero]
    norm_num
  have hms : maskedSoftmaxRow [some (0 : ℝ), some 0] = [1/2, 1/2] := by
    simp [maskedSoftmaxRow, hsd, Real.exp_zero]
  have hsm : sequence_mask [1] = [[true]] := rfl
  have hstep : attnStep Atriv [[[1], [2]]] [1] [[0]] = some [[1/2, 1/2]] := by
    unfold attnStep
    rw [hsm]
    show attnStepRows Atriv [[[1], [2]]] [[0]] [[true]] = some [[1/2, 1/2]]
    simp only [attnStepRows, hscore, hmf, Option.map_some', Option.some_bind, hms]
  exact ⟨rfl, rfl, hstep, by norm_num⟩

/-- C1 witness: a width-2 batch with declared length 2 gets a weight row that
is non-negative, sums to 1 and vanishes at positions at/beyond length 2. -/
theorem attn_weights_prob_dist_witness :
    ∃ W, attnStep Atriv [[[1], [2]]] [2] [[0]] = some W ∧
      ((∀ x ∈ W.getD 0 [], 0 ≤ x) ∧ (W.getD 0 []).sum = 1 ∧
       (W.getD 0 []).length = maxLen [2] ∧
       (∀ j, ([2] : List ℕ).getD 0 0 ≤ j → (W.getD 0 []).getD j 0 = 0)) := by
  have hs : (attnStep Atriv [[[1], [2]]] [2] [[0]]).isSome = true := by
    rw [attnStep_isSome_iff Atriv _ _ _ rfl rfl]
    decide
  rcases Option.isSome_iff_exists.mp hs with ⟨W, hW⟩
  have h := attn_weights_prob_dist Atriv [[[1], [2]]] [2] [[0]] W hW (by decide) (by decide)
  have hlen : W.length = 1 := by
    have h2 := (attnStepRows_some Atriv _ _ _ W hW).2.2.1
    simpa using h2
  exact ⟨W, hW, h 0 (by omega)⟩

/-- C10 (amended): BahdanauAttention.forward builds its mask with width
max(src_lengths); with aligned batch dimensions and a nonempty target, it
completes exactly when every encoder row's source width equals
max(src_lengths) or max(src_lengths) = 1.  In particular it fails whenever
1 < max(src_lengths) differs from the source width, but when
max(src_lengths) = 1 the (batch, 1) mask broadcasts inside masked_fill and
forward completes, attending over all source positions instead of failing. -/
theorem attn_mask_width_completion (A : BahdanauAttention) (query enc : List (List Vec))
    (lengths : List ℕ) (hq : query.length = enc.length) (hl : enc.length = lengths.length) :
    (attnForward A query enc lengths).isSome = true ↔
      (0 < maxTgtLen query ∧ ∀ e2 ∈ enc, maxLen lengths = e2.length ∨ maxLen lengths = 1) :=
  attnForward_isSome_iff A query enc lengths hq hl

/-- C10 witness: the completion criterion instantiated at a concrete batch
with source width 2 and max(src_lengths) = 2. -/
theorem attn_mask_width_completion_witness :
    (attnForward Atriv [[[0]]] [[[1], [2]]] [2]).isSome = true ↔
      (0 < maxTgtLen [[[0]]] ∧
       ∀ e2 ∈ ([[[1], [2]]] : List (List Vec)), maxLen [2] = e2.length ∨ maxLen [2] = 1) :=
  attn_mask_width_completion Atriv [[[0]]] [[[1], [2]]] [2] rfl rfl

/-- C10 counterexample: encoder outputs with 2 source positions and
max(src_lengths) = 1 < 2: the claim says forward must fail, yet it completes
(via mask broadcasting). -/
theorem attn_mask_width_cex :
    maxLen [1] = 1 ∧
    (∀ e2 ∈ ([[[1], [2]]] : List (List Vec)), e2.length = 2) ∧
    (attnForward Atriv [[[0]]] [[[1], [2]]] [1]).isSome = true := by
  refine ⟨rfl, by decide, ?_⟩
  rw [attnForward_isSome_iff Atriv [[[0]]] [[[1], [2]]] [1] rfl rfl]
  exact ⟨by decide, by decide⟩

/-- C5: when BahdanauAttention.forward completes, its first return value
stacks the context vectors of ALL target steps (shape (batch, max_tgt_len)
with one context vector per step), but its second return value is only the
attention distribution of the final target step processed. -/
theorem attn_returns_last_weights (A : BahdanauAttention) (query enc : List (List Vec))
    (lengths : List ℕ) (C : List (List Vec)) (w : List (List ℝ))
    (h : attnForward A query enc lengths = some (C, w)) :
    0 < maxTgtLen query ∧
    attnStep A enc lengths (queryCol query (maxTgtLen query - 1)) = some w ∧
    C.length = enc.length ∧
    (∀ b, b < enc.length → (C.getD b []).length = maxTgtLen query) ∧
    (∀ b t, b < enc.length → t < maxTgtLen query →
      ∃ Wt, attnStep A enc lengths (queryCol query t) = some Wt ∧
        (C.getD b []).getD t [] = weightedSum (Wt.getD b []) (enc.getD b [])) := by
  unfold attnForward at h
  rcases Option.bind_eq_some.mp h with ⟨Ws, hWs, hmap⟩
  rcases Option.map_eq_some'.mp hmap with ⟨wlast, hlast, hpair⟩
  have hC : C = stackDim1 enc.length (Ws.map (fun W => List.zipWith weightedSum W enc)) := by
    cases hpair
    rfl
  have hw : w = wlast := by
    cases hpair
    rfl
  have hlen := optionMapAll_some_length _ _ _ hWs
  rw [List.length_range] at hlen
  rcases getLast?_eq_some_getD Ws wlast hlast [] with ⟨hpos, hwl⟩
  have hT : 0 < maxTgtLen query := by omega
  refine ⟨hT, ?_, ?_, ?_, ?_⟩
  · have h5 := optionMapAll_some_getD _ _ _ hWs (maxTgtLen query - 1)
      (by rw [List.length_range]; omega) 0 []
    rw [getD_range_lt _ _ (by omega) 0] at h5
    rw [hlen] at hwl
    rw [hw, hwl]
    exact h5
  · rw [hC, length_stackDim1]
  · intro b hb
    rw [hC, getD_stackDim1 _ _ b hb]
    simp only [List.length_map]
    exact hlen
  · intro b t hb ht
    have h5 := optionMapAll_some_getD _ _ _ hWs t (by rw [List.length_range]; omega) 0 []
    rw [getD_range_lt _ t (by omega) 0] at h5
    refine ⟨Ws.getD t [], h5, ?_⟩
    have hWtlen : (Ws.getD t []).length = enc.length :=
      (attnStepRows_some A enc (queryCol query t) (sequence_mask lengths) _ h5).2.2.1
    have hmap2 : (C.getD b []).getD t []
        = ((Ws.map (fun W => List.zipWith weightedSum W enc)).getD t []).getD b [] := by
      rw [hC, getD_stackDim1 _ _ b hb]
      exact getD_map_lt _ _ t (by rw [List.length_map]; omega) [] []
    rw [hmap2, getD_map_lt _ Ws t (by omega) [] []]
    exact getD_zipWith_lt weightedSum _ enc b (by omega) hb [] [] []

/-- C5 witness: a concrete completing run with two target steps, whose second
return value is the step-1 (last-step) distribution. -/
theorem attn_returns_last_weights_witness :
    ∃ C w, attnForward Atriv [[[0], [0]]] [[[1]]] [1] = some (C, w) ∧
      attnStep Atriv [[[1]]] [1]
        (queryCol [[[0], [0]]] (maxTgtLen [[[0], [0]]] - 1)) = some w := by
  have hs : (attnForward Atriv [[[0], [0]]] [[[1]]] [1]).isSome = true := by
    rw [attnForward_isSome_iff Atriv [[[0], [0]]] [[[1]]] [1] rfl rfl]
    exact ⟨by decide, by decide⟩
  rcases Option.isSome_iff_exists.mp hs with ⟨p, hp⟩
  have hp2 : attnForward Atriv [[[0], [0]]] [[[1]]] [1] = some (p.1, p.2) := by
    rw [hp]
  have h := attn_returns_last_weights Atriv [[[0], [0]]] [[[1]]] [1] p.1 p.2 hp2
  exact ⟨p.1, p.2, hp2, h.2.1⟩

end HW2
